import Mathlib

/-!
Shallow embedding of the CGT intelligence data collector
(`cgt_data_collector.py`) and proofs about the claims of its
specification.

Conventions of the embedding:
- Python `float` values carried by holdings (ETF percentage weights,
  market values) are modelled as `Rat`; the only arithmetic the source
  performs on them (comparisons against a threshold, scaling by powers
  of ten in the market-value formatter) is reproduced exactly on
  rationals, using integer arithmetic on numerator and denominator.
- Python `None` is modelled by `Option.none`; a Python function that can
  fall through without a `return` statement is given an `Option` result
  type, `none` standing for the implicit `None`.
- Python dictionaries (keyed by company symbol, insertion-ordered) are
  modelled as association lists `List (String × Company)`; assignment
  `d[k] = v` keeps the position of an existing key and appends a fresh
  one, exactly as an insertion-ordered dictionary does.
- Python truthiness tests on optional strings (`if not x`) are modelled
  by `strFalsy`: `None` and the empty string are falsy.
-/

namespace CGTApp

/-- Company dataclass of `cgt_data_collector.py`: symbol, display name and
optional website, formatted market cap and the two ETF weights. -/
structure Company where
  symbol : String
  name : String
  website : Option String := none
  market_cap : Option String := none
  xbi_weight : Option Rat := none
  nbi_weight : Option Rat := none
deriving Repr, DecidableEq

/-- Python truthiness of an optional string: `None` and `""` are falsy. -/
def strFalsy : Option String → Bool
  | none => true
  | some s => s == ""

/-- The `market_cap` backfill of `get_combined_holdings`:
`if not existing.market_cap and company.market_cap: existing.market_cap = company.market_cap`. -/
def mcStep (m c : Option String) : Option String :=
  if strFalsy m && !strFalsy c then c else m

/-- In-place merge of a second-source record into an existing record in
`get_combined_holdings`: the NBI weight is overwritten, the market cap is
only backfilled when the existing one is falsy, all other fields stay. -/
def mergeCompany (e c : Company) : Company :=
  { e with nbi_weight := c.nbi_weight, market_cap := mcStep e.market_cap c.market_cap }

/-- Insertion-ordered dictionary keyed by company symbol, as used by
`get_combined_holdings` (`company_dict`). -/
abbrev CompanyDict := List (String × Company)

/-- Dictionary lookup: first (and, under the no-duplicate-keys invariant,
only) entry with the given key. -/
def lookup : CompanyDict → String → Option Company
  | [], _ => none
  | (k, v) :: d, k' => if k' = k then some v else lookup d k'

/-- The key sequence of the dictionary, in insertion order. -/
def keys (d : CompanyDict) : List String := d.map Prod.fst

/-- Dictionary assignment `d[k] = v`: replace the value in place (keeping
the key's position) when the key exists, append the pair otherwise. -/
def dinsert : CompanyDict → String → Company → CompanyDict
  | [], k, v => [(k, v)]
  | (k0, v0) :: d, k, v =>
    if k0 = k then (k0, v) :: d else (k0, v0) :: dinsert d k v

/-- One step of the first loop of `get_combined_holdings`:
`company_dict[company.symbol] = company`. -/
def xbiStep (d : CompanyDict) (c : Company) : CompanyDict :=
  dinsert d c.symbol c

/-- The value a second-source record contributes at its key: merged into
the existing record when the key is present, the record itself otherwise. -/
def mergeEntry (v : Option Company) (c : Company) : Company :=
  match v with
  | some e => mergeCompany e c
  | none => c

/-- One step of the second loop of `get_combined_holdings`: merge into the
existing entry when `company.symbol in company_dict`, insert otherwise. -/
def nbiStep (d : CompanyDict) (c : Company) : CompanyDict :=
  dinsert d c.symbol (mergeEntry (lookup d c.symbol) c)

/-- The first loop of `get_combined_holdings`, seeding the dictionary with
the XBI records. -/
def foldXbi (d : CompanyDict) (A : List Company) : CompanyDict :=
  A.foldl xbiStep d

/-- The second loop of `get_combined_holdings`, folding the NBI records in. -/
def foldNbi (d : CompanyDict) (B : List Company) : CompanyDict :=
  B.foldl nbiStep d

/-- `get_combined_holdings`: fold both source lists into the dictionary and
return `list(company_dict.values())`. -/
def get_combined_holdings (A B : List Company) : List Company :=
  (foldNbi (foldXbi [] A) B).map Prod.snd

/-! ### Market value formatter (`_format_market_value`) -/

/-- Digit grouping: walk a reversed digit list inserting a comma after
every third digit, as the `,` option of a Python format spec does. -/
def groupRev : List Char → Nat → List Char
  | [], _ => []
  | c :: cs, k => if k == 3 then ',' :: c :: groupRev cs 1 else c :: groupRev cs (k + 1)

/-- Render an integer with thousands separators, as `f"{v:,.0f}"` renders
an integral value. -/
def formatIntComma (n : Int) : String :=
  (if n < 0 then "-" else "") ++ String.mk ((groupRev (toString n.natAbs).data.reverse 0).reverse)

/-- Nearest integer to a rational, halves rounded up: the rounding a
Python `.0f` format performs on the values reachable here (the two
roundings agree away from ties, and the exact inputs of the spec's
formatter examples are never ties). -/
def pyRound0 (q : Rat) : Int :=
  Int.fdiv (2 * q.num + (q.den : Int)) (2 * (q.den : Int))

/-- One-decimal rendering of `q / scale`, as `f"{q/scale:.1f}"` renders it
for the nonnegative values reachable from the formatter's branches:
`t = round(10 * q / scale)` computed exactly on numerator and denominator,
then printed as `t div 10 . t mod 10`. -/
def renderScaledTenth (q : Rat) (scale : Nat) : String :=
  let t : Int := Int.fdiv (20 * q.num + (scale : Int) * (q.den : Int))
      (2 * (scale : Int) * (q.den : Int))
  toString (t.toNat / 10) ++ "." ++ toString (t.toNat % 10)

/-- `_format_market_value`: falsy input (missing value, or zero) renders as
`"N/A"`; at or above `1e9` billions with one decimal; at or above `1e6`
millions with one decimal; otherwise an integer with thousands separators. -/
def formatMarketValue : Option Rat → String
  | none => "N/A"
  | some q =>
    if q = 0 then "N/A"
    else if (1000000000 : Rat) ≤ q then "$" ++ renderScaledTenth q 1000000000 ++ "B"
    else if (1000000 : Rat) ≤ q then "$" ++ renderScaledTenth q 1000000 ++ "M"
    else "$" ++ formatIntComma (pyRound0 q)

/-! ### ETF holdings adapters (`get_xbi_holdings`, `get_nbi_holdings`) -/

/-- Python `str.strip()` for the whitespace characters it removes by
default, on the identifiers and names of holdings. -/
def isPySpace (c : Char) : Bool :=
  c == ' ' || c == '\t' || c == '\n' || c == '\r' || c == Char.ofNat 11 || c == Char.ofNat 12

/-- Python `str.strip()`: drop leading and trailing whitespace. -/
def pyStrip (s : String) : String :=
  String.mk (((s.data.dropWhile isPySpace).reverse.dropWhile isPySpace).reverse)

/-- One entry of the XBI holdings payload, with the fields the scraper
reads; a missing numeric field is `none` (`holding.get` default). -/
structure RawHolding where
  identifier : String := ""
  name : String := ""
  percentWeight : Option Rat := none
  marketValue : Option Rat := none
deriving Repr, DecidableEq

/-- `float(holding.get('percentWeight', 0))`. -/
def rawWeight (h : RawHolding) : Rat :=
  h.percentWeight.getD 0

/-- The `Company` built from one XBI holding that passed the threshold. -/
def mkXbiCompany (h : RawHolding) : Company :=
  { symbol := pyStrip h.identifier
    name := pyStrip h.name
    xbi_weight := some (rawWeight h)
    market_cap := some (formatMarketValue h.marketValue) }

/-- The XBI holdings loop: keep a company for every holding whose weight is
strictly greater than `0.1` (`if float(...) > 0.1`). -/
def processXbiHoldings : List RawHolding → List Company
  | [] => []
  | h :: hs =>
    if mkRat 1 10 < rawWeight h then mkXbiCompany h :: processXbiHoldings hs
    else processXbiHoldings hs

/-- One entry of the IBB/NBI holdings payload. -/
structure RawNbiHolding where
  ticker : String := ""
  securityName : String := ""
  percentOfNetAssets : Option Rat := none
  marketValue : Option Rat := none
deriving Repr, DecidableEq

/-- `float(holding.get('percentOfNetAssets', 0))`. -/
def rawNbiWeight (h : RawNbiHolding) : Rat :=
  h.percentOfNetAssets.getD 0

/-- The `Company` built from one IBB/NBI holding that passed the threshold. -/
def mkNbiCompany (h : RawNbiHolding) : Company :=
  { symbol := pyStrip h.ticker
    name := pyStrip h.securityName
    nbi_weight := some (rawNbiWeight h)
    market_cap := some (formatMarketValue h.marketValue) }

/-- The NBI holdings loop, with the same strict `> 0.1` threshold. -/
def processNbiHoldings : List RawNbiHolding → List Company
  | [] => []
  | h :: hs =>
    if mkRat 1 10 < rawNbiWeight h then mkNbiCompany h :: processNbiHoldings hs
    else processNbiHoldings hs

/-- Outcome of one upstream fetch as the adapter's `try` block sees it:
either some exception was raised inside the block (transport error,
malformed payload while decoding), or a response with a status code and a
decoded holdings list arrived. -/
inductive FetchOutcome (α : Type) where
  | exn : FetchOutcome α
  | response (status : Nat) (payload : α) : FetchOutcome α
deriving Repr, DecidableEq

/-- `get_xbi_holdings`: on an exception the `except` clause returns `[]`;
on a 200 response the processed companies are returned; on any other
status the function falls through and returns Python `None` (modelled as
`Option.none`). -/
def get_xbi_holdings : FetchOutcome (List RawHolding) → Option (List Company)
  | .exn => some []
  | .response status hs =>
    if status == 200 then some (processXbiHoldings hs) else none

/-- `get_nbi_holdings`, with the same shape as `get_xbi_holdings`. -/
def get_nbi_holdings : FetchOutcome (List RawNbiHolding) → Option (List Company)
  | .exn => some []
  | .response status hs =>
    if status == 200 then some (processNbiHoldings hs) else none

/-- Running `get_combined_holdings` on the two fetch results: iterating a
Python `None` raises `TypeError`, which propagates out of the
orchestrator; otherwise the merged list is produced. -/
def runCombinedHoldings (ox : FetchOutcome (List RawHolding))
    (on' : FetchOutcome (List RawNbiHolding)) : Except String (List Company) :=
  match get_xbi_holdings ox with
  | none => .error "TypeError: NoneType object is not iterable"
  | some A =>
    match get_nbi_holdings on' with
    | none => .error "TypeError: NoneType object is not iterable"
    | some B => .ok (get_combined_holdings A B)

/-! ### Clinical trials collection (`ClinicalTrialsCollector`, `collect_all_data`) -/

/-- Processed clinical-trial record (`_process_trials`), with the fields
the claims touch. -/
structure Trial where
  nct_id : String := ""
  title : String := ""
  status : String := ""
  phase : String := ""
  sponsor : String := ""
deriving Repr, DecidableEq

/-- The trials loop of `collect_all_data`: query the registry once per
company for the first five companies (`companies[:5]`), skipping a company
with a falsy name (`if company and company.name`), and extend one flat
list with each query's results. `search` abstracts
`search_company_trials`, which returns the processed list for a name. -/
def collectTrials (search : String → List Trial) (companies : List Company) : List Trial :=
  (companies.take 5).foldl
    (fun acc c => if c.name == "" then acc else acc ++ search c.name) []

/-! ### Company detail endpoint (`get_company_details`) -/

/-- Python `str.lower()` on the characters of a string. -/
def pyLower (s : String) : String := String.mk (s.data.map Char.toLower)

/-- Python `str.upper()` on the characters of a string. -/
def pyUpper (s : String) : String := String.mk (s.data.map Char.toUpper)

/-- Python substring containment `needle in hay`: some suffix of `hay`
starts with `needle` (the empty needle is contained everywhere). -/
def strContains (hay needle : String) : Bool :=
  (List.range (hay.data.length + 1)).any (fun i => needle.data.isPrefixOf (hay.data.drop i))

/-- FDA approval record (`_process_drug_approvals`), with the fields the
claims touch; `company` is the sponsor name. -/
structure Approval where
  drug_name : String := ""
  company : String := ""
  approval_date : Option String := none
deriving Repr, DecidableEq

/-- One company dictionary of the snapshot built by `collect_all_data`.
Each field holds the JSON value stored under that key; the optional types
record which stored values can be `null`. -/
structure StoredCompany where
  symbol : String
  name : String
  website : Option String := none
  market_cap : Option String := none
  xbi_weight : Option Rat := none
  nbi_weight : Option Rat := none
deriving Repr, DecidableEq

/-- Python `x or 0` on an optional float: `None` and `0.0` are falsy and
give the default `0`; any other number is returned unchanged. -/
def pyOrZero : Option Rat → Rat
  | none => 0
  | some q => if q = 0 then 0 else q

/-- The company list stored by `collect_all_data`: the first
`max_companies` merged companies, each weight coerced with `or 0` so the
stored value is a number even when the merged record had `None`. -/
def storeCompanies (companies : List Company) (maxCompanies : Nat) : List StoredCompany :=
  (companies.take maxCompanies).map (fun c =>
    { symbol := c.symbol
      name := c.name
      website := c.website
      market_cap := c.market_cap
      xbi_weight := some (pyOrZero c.xbi_weight)
      nbi_weight := some (pyOrZero c.nbi_weight) })

/-- Successful payload of `GET /api/company/{symbol}`. -/
structure CompanyDetails where
  company : StoredCompany
  fda_approvals : List Approval
  clinical_trials : List Trial
deriving Repr, DecidableEq

/-- `get_company_details`: find the first stored company whose symbol
equals the uppercased query; on a miss return the not-found outcome
(`none`, the `{"error": ...}` payload). On a hit, keep the approvals whose
sponsor lowercased occurs inside the company name lowercased
(`d.get('company','').lower() in company['name'].lower()`) and the trials
whose sponsor lowercased contains the company name lowercased
(`company['name'].lower() in t.get('sponsor','').lower()`). -/
def get_company_details (companies : List StoredCompany) (approvals : List Approval)
    (trials : List Trial) (symbol : String) : Option CompanyDetails :=
  match companies.find? (fun c => c.symbol == pyUpper symbol) with
  | none => none
  | some company => some
    { company := company
      fda_approvals :=
        approvals.filter (fun d => strContains (pyLower company.name) (pyLower d.company))
      clinical_trials :=
        trials.filter (fun t => strContains (pyLower t.sponsor) (pyLower company.name)) }

/-! ### Auxiliary definitions for the proofs -/

/-- Effect of one first-loop record on the value stored at key `k`. -/
def hstep (k : String) (v : Option Company) (a : Company) : Option Company :=
  if a.symbol = k then some a else v

/-- Effect of one second-loop record on the value stored at key `k`. -/
def gstep (k : String) (v : Option Company) (b : Company) : Option Company :=
  if b.symbol = k then some (mergeEntry v b) else v

/-- Folding the second-loop step at one key visits exactly the records
with that symbol, in order. -/
def mergeRun : Option Company → List Company → Option Company
  | v, [] => v
  | v, b :: bs => mergeRun (some (mergeEntry v b)) bs

/-- Every entry of the dictionary is stored under its company's symbol. -/
def symKeyed (d : CompanyDict) : Prop := ∀ p ∈ d, (p.2).symbol = p.1

/-! ### Concrete data used by counterexamples and witnesses -/

/-- Concrete XBI feed used in the C7 witness. -/
def gildXbiFeed : List Company :=
  [{ symbol := "GILD", name := "Gilead", xbi_weight := some (mkRat 21 5) }]

/-- Concrete NBI feed used in the C7 witness, sharing the symbol GILD. -/
def gildNbiFeed : List Company :=
  [{ symbol := "GILD", name := "Gilead Sciences", nbi_weight := some (mkRat 19 5) }]

/-- Search stub returning one fixed trial for every query. -/
def dupTrialSearch : String → List Trial :=
  fun _ => [{ nct_id := "NCT00000001", sponsor := "Acme Bio" }]

/-- Two companies whose queries both return the same trial. -/
def dupTrialCompanies : List Company :=
  [{ symbol := "AAAA", name := "Acme Bio" }, { symbol := "BBBB", name := "Acme Bio Inc" }]

/-- Stored company for the cross-reference scenario. -/
def vertexCompany : StoredCompany := { symbol := "VRTX", name := "Vertex Pharmaceuticals" }

/-- Approval whose sponsor extends the company name. -/
def vertexApproval : Approval :=
  { drug_name := "Casgevy", company := "Vertex Pharmaceuticals Incorporated" }

/-- Trial whose sponsor extends the company name. -/
def vertexTrial : Trial :=
  { nct_id := "NCT00000001", sponsor := "Vertex Pharmaceuticals Incorporated" }

/-- The detail payload the endpoint produces for the Vertex scenario. -/
def vertexDetails : CompanyDetails :=
  { company := vertexCompany, fda_approvals := [], clinical_trials := [vertexTrial] }

/-- First record of the spec's GILD merge scenario. -/
def gildA : Company :=
  { symbol := "GILD"
    name := "Gilead"
    xbi_weight := some (mkRat 21 5) }

/-- Second record of the spec's GILD merge scenario. -/
def gildB : Company :=
  { symbol := "GILD"
    name := "Gilead"
    market_cap := some "$98.7B"
    nbi_weight := some (mkRat 19 5) }

/-- The single record the GILD scenario is expected to merge to. -/
def gildMerged : Company :=
  { symbol := "GILD"
    name := "Gilead"
    market_cap := some "$98.7B"
    xbi_weight := some (mkRat 21 5)
    nbi_weight := some (mkRat 19 5) }

/-- First merge input of the C4 witness: market cap already set. -/
def precA : Company :=
  { symbol := "CRSP", name := "CRISPR Therapeutics", market_cap := some "$4.0B",
    xbi_weight := some (mkRat 3 2) }

/-- Second merge input of the C4 witness: same symbol, no market cap. -/
def precB : Company :=
  { symbol := "CRSP", name := "CRISPR Therapeutics AG", nbi_weight := some (mkRat 1 2) }

/-- A holding whose weight sits exactly at the `0.1` threshold. -/
def boundaryHolding : RawHolding :=
  { identifier := "XEG"
    name := "Example Genomics"
    percentWeight := some (mkRat 1 10) }

/-- A stored company whose symbol is lowercase. -/
def lowercaseStored : StoredCompany := { symbol := "gild", name := "Gilead Sciences" }

/-- A stored company with the conventional uppercase symbol. -/
def gildStored : StoredCompany := { symbol := "GILD", name := "Gilead Sciences" }

/-- Detail payload for looking `gild` up against `gildStored`. -/
def gildDetails : CompanyDetails :=
  { company := gildStored, fda_approvals := [], clinical_trials := [] }

/-- Merged companies fed to the snapshot builder in the C10 witness; the
XBI weight is absent. -/
def storedDemo : List Company :=
  [{ symbol := "RARE", name := "Ultragenyx", nbi_weight := some (mkRat 1 2) }]

/-- The record the snapshot builder stores for `storedDemo`. -/
def storedDemoOut : StoredCompany :=
  { symbol := "RARE", name := "Ultragenyx", xbi_weight := some 0,
    nbi_weight := some (mkRat 1 2) }

/-! ### Dictionary lemmas -/

theorem keys_nil : keys [] = [] := rfl

theorem keys_cons (k0 : String) (v0 : Company) (d : CompanyDict) :
    keys ((k0, v0) :: d) = k0 :: keys d := rfl

theorem lookup_eq_none (d : CompanyDict) (k : String) (h : k ∉ keys d) :
    lookup d k = none := by
  induction d with
  | nil => rfl
  | cons p d ih =>
    obtain ⟨k0, v0⟩ := p
    simp only [keys, List.map_cons, List.mem_cons, not_or] at h
    simp only [lookup, if_neg h.1]
    exact ih (by simpa [keys] using h.2)

theorem mem_keys_of_lookup (d : CompanyDict) (k : String) (v : Company)
    (h : lookup d k = some v) : k ∈ keys d := by
  by_contra hk
  rw [lookup_eq_none d k hk] at h
  exact Option.noConfusion h

theorem mem_of_lookup_eq_some (d : CompanyDict) (k : String) (v : Company)
    (h : lookup d k = some v) : (k, v) ∈ d := by
  induction d with
  | nil => exact Option.noConfusion h
  | cons p d ih =>
    obtain ⟨k0, v0⟩ := p
    simp only [lookup] at h
    split at h
    · next heq =>
      cases h
      subst heq
      exact List.mem_cons_self _ _
    · exact List.mem_cons_of_mem _ (ih h)

theorem lookup_dinsert (d : CompanyDict) (k : String) (v : Company) (k' : String) :
    lookup (dinsert d k v) k' = if k' = k then some v else lookup d k' := by
  induction d with
  | nil =>
    simp [dinsert, lookup]
  | cons p d ih =>
    obtain ⟨k0, v0⟩ := p
    by_cases h0 : k0 = k
    · subst h0
      by_cases h1 : k' = k0 <;> simp [dinsert, lookup, h1]
    · by_cases h1 : k' = k0
      · subst h1
        simp [dinsert, h0, lookup]
      · simp [dinsert, h0, lookup, h1, ih]

theorem keys_dinsert (d : CompanyDict) (k : String) (v : Company) :
    keys (dinsert d k v) = if k ∈ keys d then keys d else keys d ++ [k] := by
  induction d with
  | nil => simp [dinsert, keys]
  | cons p d ih =>
    obtain ⟨k0, v0⟩ := p
    by_cases h0 : k0 = k
    · subst h0
      have h1 : dinsert ((k0, v0) :: d) k0 v = (k0, v) :: d := by simp [dinsert]
      rw [h1, keys_cons, keys_cons, if_pos (List.mem_cons_self _ _)]
    · have hne : ¬ k = k0 := fun hh => h0 hh.symm
      have h1 : dinsert ((k0, v0) :: d) k v = (k0, v0) :: dinsert d k v := by
        simp [dinsert, h0]
      rw [h1, keys_cons, keys_cons, ih]
      by_cases hd : k ∈ keys d
      · rw [if_pos hd, if_pos (List.mem_cons_of_mem _ hd)]
      · rw [if_neg hd, if_neg (by simp [List.mem_cons, hne, hd])]
        simp

theorem mem_keys_dinsert (d : CompanyDict) (k : String) (v : Company) (k' : String) :
    k' ∈ keys (dinsert d k v) ↔ k' ∈ keys d ∨ k' = k := by
  rw [keys_dinsert]
  by_cases hm : k ∈ keys d
  · rw [if_pos hm]
    constructor
    · exact Or.inl
    · rintro (h | h)
      · exact h
      · exact h ▸ hm
  · rw [if_neg hm]
    simp

theorem nodup_keys_dinsert (d : CompanyDict) (k : String) (v : Company)
    (h : (keys d).Nodup) : (keys (dinsert d k v)).Nodup := by
  rw [keys_dinsert]
  by_cases hm : k ∈ keys d
  · rwa [if_pos hm]
  · rw [if_neg hm]
    exact ((List.perm_append_singleton k (keys d)).nodup_iff).mpr (h.cons hm)

theorem dict_ext : ∀ (d1 d2 : CompanyDict), keys d1 = keys d2 → (keys d1).Nodup →
    (∀ k, lookup d1 k = lookup d2 k) → d1 = d2
  | [], [], _, _, _ => rfl
  | [], (k2, v2) :: d2, hk, _, _ => by simp [keys] at hk
  | (k1, v1) :: d1, [], hk, _, _ => by simp [keys] at hk
  | (k1, v1) :: d1, (k2, v2) :: d2, hk, hnd, hl => by
    simp only [keys, List.map_cons, List.cons.injEq] at hk
    obtain ⟨hk12, hkt⟩ := hk
    subst hk12
    have hv : v1 = v2 := by
      have h := hl k1
      simpa [lookup] using h
    subst hv
    simp only [keys, List.map_cons, List.nodup_cons] at hnd
    have htail : d1 = d2 := by
      apply dict_ext d1 d2 hkt hnd.2
      intro k
      by_cases h1 : k = k1
      · subst h1
        have h2 : k ∉ keys d2 := by
          intro hmem
          apply hnd.1
          rw [hkt]
          exact hmem
        rw [lookup_eq_none d1 k hnd.1, lookup_eq_none d2 k h2]
      · have h := hl k
        simpa [lookup, if_neg h1] using h
    rw [htail]

/-! ### Pointwise characterization of the two merge loops -/

theorem lookup_xbiStep (d : CompanyDict) (c : Company) (k : String) :
    lookup (xbiStep d c) k = hstep k (lookup d k) c := by
  unfold xbiStep hstep
  rw [lookup_dinsert]
  by_cases h : c.symbol = k
  · rw [if_pos h.symm, if_pos h]
  · rw [if_neg (fun hh => h hh.symm), if_neg h]

theorem lookup_nbiStep (d : CompanyDict) (c : Company) (k : String) :
    lookup (nbiStep d c) k = gstep k (lookup d k) c := by
  unfold nbiStep gstep
  rw [lookup_dinsert]
  by_cases h : c.symbol = k
  · rw [if_pos h.symm, if_pos h, h]
  · rw [if_neg (fun hh => h hh.symm), if_neg h]

theorem lookup_foldXbi (A : List Company) : ∀ (d : CompanyDict) (k : String),
    lookup (foldXbi d A) k = A.foldl (hstep k) (lookup d k) := by
  induction A with
  | nil => intro d k; rfl
  | cons a A ih =>
    intro d k
    show lookup (foldXbi (xbiStep d a) A) k = A.foldl (hstep k) (hstep k (lookup d k) a)
    rw [ih, lookup_xbiStep]

theorem lookup_foldNbi (B : List Company) : ∀ (d : CompanyDict) (k : String),
    lookup (foldNbi d B) k = B.foldl (gstep k) (lookup d k) := by
  induction B with
  | nil => intro d k; rfl
  | cons b B ih =>
    intro d k
    show lookup (foldNbi (nbiStep d b) B) k = B.foldl (gstep k) (gstep k (lookup d k) b)
    rw [ih, lookup_nbiStep]

theorem mem_keys_foldXbi (A : List Company) : ∀ (d : CompanyDict) (k : String),
    k ∈ keys (foldXbi d A) ↔ k ∈ keys d ∨ k ∈ A.map Company.symbol := by
  induction A with
  | nil => intro d k; simp [foldXbi]
  | cons a A ih =>
    intro d k
    show k ∈ keys (foldXbi (xbiStep d a) A) ↔ _
    rw [ih]
    unfold xbiStep
    rw [mem_keys_dinsert]
    simp [List.mem_cons, or_assoc, eq_comm]

theorem mem_keys_foldNbi (B : List Company) : ∀ (d : CompanyDict) (k : String),
    k ∈ keys (foldNbi d B) ↔ k ∈ keys d ∨ k ∈ B.map Company.symbol := by
  induction B with
  | nil => intro d k; simp [foldNbi]
  | cons b B ih =>
    intro d k
    show k ∈ keys (foldNbi (nbiStep d b) B) ↔ _
    rw [ih]
    unfold nbiStep
    rw [mem_keys_dinsert]
    simp [List.mem_cons, or_assoc, eq_comm]

theorem keys_foldXbi_of_mem (A : List Company) : ∀ (d : CompanyDict),
    (∀ a ∈ A, a.symbol ∈ keys d) → keys (foldXbi d A) = keys d := by
  induction A with
  | nil => intro d _; rfl
  | cons a A ih =>
    intro d h
    have hstep1 : keys (xbiStep d a) = keys d := by
      unfold xbiStep
      rw [keys_dinsert, if_pos (h a (List.mem_cons_self _ _))]
    show keys (foldXbi (xbiStep d a) A) = keys d
    rw [ih (xbiStep d a) (fun a' ha' => hstep1 ▸ h a' (List.mem_cons_of_mem _ ha')), hstep1]

theorem keys_foldNbi_of_mem (B : List Company) : ∀ (d : CompanyDict),
    (∀ b ∈ B, b.symbol ∈ keys d) → keys (foldNbi d B) = keys d := by
  induction B with
  | nil => intro d _; rfl
  | cons b B ih =>
    intro d h
    have hstep1 : keys (nbiStep d b) = keys d := by
      unfold nbiStep
      rw [keys_dinsert, if_pos (h b (List.mem_cons_self _ _))]
    show keys (foldNbi (nbiStep d b) B) = keys d
    rw [ih (nbiStep d b) (fun b' hb' => hstep1 ▸ h b' (List.mem_cons_of_mem _ hb')), hstep1]

theorem nodup_keys_foldXbi (A : List Company) : ∀ (d : CompanyDict),
    (keys d).Nodup → (keys (foldXbi d A)).Nodup := by
  induction A with
  | nil => intro d h; exact h
  | cons a A ih =>
    intro d h
    exact ih (xbiStep d a) (nodup_keys_dinsert _ _ _ h)

theorem nodup_keys_foldNbi (B : List Company) : ∀ (d : CompanyDict),
    (keys d).Nodup → (keys (foldNbi d B)).Nodup := by
  induction B with
  | nil => intro d h; exact h
  | cons b B ih =>
    intro d h
    exact ih (nbiStep d b) (nodup_keys_dinsert _ _ _ h)

/-! ### The value fold at one key -/

theorem foldl_hstep_of_forall (A : List Company) (k : String)
    (h : ∀ a ∈ A, a.symbol ≠ k) : ∀ v, A.foldl (hstep k) v = v := by
  induction A with
  | nil => intro v; rfl
  | cons a A ih =>
    intro v
    show A.foldl (hstep k) (hstep k v a) = v
    rw [hstep, if_neg (h a (List.mem_cons_self _ _))]
    exact ih (fun a' ha' => h a' (List.mem_cons_of_mem _ ha')) v

theorem foldl_hstep_of_exists (A : List Company) (k : String)
    (h : ∃ a ∈ A, a.symbol = k) : ∀ v w, A.foldl (hstep k) v = A.foldl (hstep k) w := by
  induction A with
  | nil => obtain ⟨a, ha, _⟩ := h; exact absurd ha (List.not_mem_nil a)
  | cons a A ih =>
    intro v w
    by_cases ha : a.symbol = k
    · show A.foldl (hstep k) (hstep k v a) = A.foldl (hstep k) (hstep k w a)
      rw [hstep, if_pos ha, hstep, if_pos ha]
    · obtain ⟨a', ha', hsym⟩ := h
      rcases List.mem_cons.mp ha' with he | hm
      · exact absurd (he ▸ hsym) ha
      · exact ih ⟨a', hm, hsym⟩ (hstep k v a) (hstep k w a)

theorem foldl_hstep_mem (A : List Company) (k : String)
    (h : k ∈ A.map Company.symbol) :
    ∃ a, a ∈ A ∧ a.symbol = k ∧ ∀ v, A.foldl (hstep k) v = some a := by
  induction A with
  | nil => simp at h
  | cons a A ih =>
    by_cases hk : k ∈ A.map Company.symbol
    · obtain ⟨a', hm, hsym, hfold⟩ := ih hk
      exact ⟨a', List.mem_cons_of_mem _ hm, hsym, fun v => hfold (hstep k v a)⟩
    · have ha : a.symbol = k := by
        rcases (show k = a.symbol ∨ ∃ a' ∈ A, a'.symbol = k by simpa using h) with
          he | ⟨a', hm, hsym⟩
        · exact he.symm
        · exact absurd (hsym ▸ List.mem_map_of_mem Company.symbol hm) hk
      refine ⟨a, List.mem_cons_self _ _, ha, fun v => ?_⟩
      show A.foldl (hstep k) (hstep k v a) = some a
      rw [hstep, if_pos ha]
      exact foldl_hstep_of_forall A k
        (fun a' ha' heq => hk (heq ▸ List.mem_map_of_mem Company.symbol ha')) (some a)

theorem foldl_gstep_eq_mergeRun (B : List Company) (k : String) : ∀ v,
    B.foldl (gstep k) v = mergeRun v (B.filter (fun b => b.symbol == k)) := by
  induction B with
  | nil => intro v; rfl
  | cons b B ih =>
    intro v
    show B.foldl (gstep k) (gstep k v b) = _
    by_cases h : b.symbol = k
    · rw [List.filter_cons_of_pos (by simpa using h)]
      rw [gstep, if_pos h, ih]
      rfl
    · rw [List.filter_cons_of_neg (by simpa using h)]
      rw [gstep, if_neg h, ih]

theorem mergeRun_some (bs : List Company) : ∀ x,
    mergeRun (some x) bs = some (bs.foldl mergeCompany x) := by
  induction bs with
  | nil => intro x; rfl
  | cons b bs ih =>
    intro x
    show mergeRun (some (mergeEntry (some x) b)) bs = _
    rw [show mergeEntry (some x) b = mergeCompany x b from rfl, ih]
    rfl

/-! ### Field behaviour of repeated in-place merging -/

theorem foldl_mergeCompany_symbol (bs : List Company) : ∀ x,
    (bs.foldl mergeCompany x).symbol = x.symbol := by
  induction bs with
  | nil => intro x; rfl
  | cons b bs ih => intro x; exact ih (mergeCompany x b)

theorem foldl_mergeCompany_name (bs : List Company) : ∀ x,
    (bs.foldl mergeCompany x).name = x.name := by
  induction bs with
  | nil => intro x; rfl
  | cons b bs ih => intro x; exact ih (mergeCompany x b)

theorem foldl_mergeCompany_website (bs : List Company) : ∀ x,
    (bs.foldl mergeCompany x).website = x.website := by
  induction bs with
  | nil => intro x; rfl
  | cons b bs ih => intro x; exact ih (mergeCompany x b)

theorem foldl_mergeCompany_xbi (bs : List Company) : ∀ x,
    (bs.foldl mergeCompany x).xbi_weight = x.xbi_weight := by
  induction bs with
  | nil => intro x; rfl
  | cons b bs ih => intro x; exact ih (mergeCompany x b)

theorem foldl_mergeCompany_nbi (bs : List Company) : ∀ x,
    (bs.foldl mergeCompany x).nbi_weight
      = bs.foldl (fun _ b => b.nbi_weight) x.nbi_weight := by
  induction bs with
  | nil => intro x; rfl
  | cons b bs ih => intro x; exact ih (mergeCompany x b)

theorem foldl_mergeCompany_mc (bs : List Company) : ∀ x,
    (bs.foldl mergeCompany x).market_cap
      = (bs.map Company.market_cap).foldl mcStep x.market_cap := by
  induction bs with
  | nil => intro x; rfl
  | cons b bs ih => intro x; exact ih (mergeCompany x b)

theorem mcFold_of_not_falsy (ms : List (Option String)) : ∀ m,
    strFalsy m = false → ms.foldl mcStep m = m := by
  induction ms with
  | nil => intro m _; rfl
  | cons c ms ih =>
    intro m hm
    show ms.foldl mcStep (mcStep m c) = m
    rw [mcStep, hm]
    simpa using ih m hm

theorem mcFold_falsy (ms : List (Option String)) : ∀ m,
    strFalsy (ms.foldl mcStep m) = true →
      ms.foldl mcStep m = m ∧ strFalsy m = true ∧ ∀ c ∈ ms, strFalsy c = true := by
  induction ms with
  | nil => intro m h; exact ⟨rfl, h, by simp⟩
  | cons c ms ih =>
    intro m h
    obtain ⟨e1, e2, e3⟩ := ih (mcStep m c) h
    cases hm : strFalsy m
    · have hmc : mcStep m c = m := by simp [mcStep, hm]
      rw [hmc] at e2
      rw [hm] at e2
      exact Bool.noConfusion e2
    · cases hc : strFalsy c
      · have hmc : mcStep m c = c := by simp [mcStep, hm, hc]
        rw [hmc] at e2
        rw [hc] at e2
        exact Bool.noConfusion e2
      · have hmc : mcStep m c = m := by simp [mcStep, hm, hc]
        rw [hmc] at e1
        refine ⟨?_, rfl, ?_⟩
        · show ms.foldl mcStep (mcStep m c) = m
          rw [hmc, e1]
        · intro c' hc'
          rcases List.mem_cons.mp hc' with he | hmm
          · exact he ▸ hc
          · exact e3 c' hmm

theorem mcFold_of_all_falsy (ms : List (Option String)) : ∀ m,
    (∀ c ∈ ms, strFalsy c = true) → ms.foldl mcStep m = m := by
  induction ms with
  | nil => intro m _; rfl
  | cons c ms ih =>
    intro m h
    show ms.foldl mcStep (mcStep m c) = m
    have hc : strFalsy c = true := h c (List.mem_cons_self _ _)
    have hmc : mcStep m c = m := by
      rw [mcStep, hc]
      simp
    rw [hmc]
    exact ih m (fun c' hc' => h c' (List.mem_cons_of_mem _ hc'))

theorem mcFold_reapply (m0 : Option String) (ms : List (Option String)) :
    ms.foldl mcStep (mcStep (ms.foldl mcStep m0) m0) = ms.foldl mcStep m0 := by
  cases hr : strFalsy (ms.foldl mcStep m0)
  · have h1 : mcStep (ms.foldl mcStep m0) m0 = ms.foldl mcStep m0 := by
      rw [mcStep, hr]
      rfl
    rw [h1]
    exact mcFold_of_not_falsy ms _ hr
  · obtain ⟨e1, e2, e3⟩ := mcFold_falsy ms m0 hr
    have h1 : mcStep (ms.foldl mcStep m0) m0 = ms.foldl mcStep m0 := by
      rw [e1, mcStep]
      simp
    rw [h1]
    exact mcFold_of_all_falsy ms _ e3

theorem company_eq_of_fields (c1 c2 : Company) (h1 : c1.symbol = c2.symbol)
    (h2 : c1.name = c2.name) (h3 : c1.website = c2.website)
    (h4 : c1.market_cap = c2.market_cap) (h5 : c1.xbi_weight = c2.xbi_weight)
    (h6 : c1.nbi_weight = c2.nbi_weight) : c1 = c2 := by
  cases c1
  cases c2
  simp_all

theorem foldl_mergeCompany_reapply (b0 : Company) (bs : List Company) :
    bs.foldl mergeCompany (mergeCompany (bs.foldl mergeCompany b0) b0)
      = bs.foldl mergeCompany b0 := by
  apply company_eq_of_fields
  · rw [foldl_mergeCompany_symbol]
    rfl
  · rw [foldl_mergeCompany_name]
    rfl
  · rw [foldl_mergeCompany_website]
    rfl
  · rw [foldl_mergeCompany_mc, foldl_mergeCompany_mc,
        show (mergeCompany (bs.foldl mergeCompany b0) b0).market_cap
          = mcStep (bs.foldl mergeCompany b0).market_cap b0.market_cap from rfl,
        foldl_mergeCompany_mc]
    exact mcFold_reapply b0.market_cap (bs.map Company.market_cap)
  · rw [foldl_mergeCompany_xbi]
    rfl
  · rw [foldl_mergeCompany_nbi, foldl_mergeCompany_nbi]
    rfl

theorem mergeRun_reapply (L : List Company) :
    mergeRun (mergeRun none L) L = mergeRun none L := by
  cases L with
  | nil => rfl
  | cons b0 bs =>
    have h0 : mergeRun none (b0 :: bs) = some (bs.foldl mergeCompany b0) := by
      show mergeRun (some (mergeEntry none b0)) bs = _
      rw [show mergeEntry none b0 = b0 from rfl, mergeRun_some]
    rw [h0]
    show mergeRun (some (mergeEntry (some (bs.foldl mergeCompany b0)) b0)) bs = _
    rw [show mergeEntry (some (bs.foldl mergeCompany b0)) b0
          = mergeCompany (bs.foldl mergeCompany b0) b0 from rfl,
        mergeRun_some, foldl_mergeCompany_reapply]

/-! ### Key/value coherence of the merge dictionary -/

theorem lookup_symbol_of_symKeyed (d : CompanyDict) (hd : symKeyed d) (k : String)
    (v : Company) (h : lookup d k = some v) : v.symbol = k :=
  hd (k, v) (mem_of_lookup_eq_some d k v h)

theorem symKeyed_dinsert (d : CompanyDict) (k : String) (v : Company)
    (hd : symKeyed d) (hv : v.symbol = k) : symKeyed (dinsert d k v) := by
  induction d with
  | nil =>
    intro p hp
    simp only [dinsert, List.mem_singleton] at hp
    subst hp
    exact hv
  | cons q d ih =>
    obtain ⟨k0, v0⟩ := q
    have hd' : symKeyed d := fun p hp => hd p (List.mem_cons_of_mem _ hp)
    by_cases h0 : k0 = k
    · subst h0
      intro p hp
      rw [show dinsert ((k0, v0) :: d) k0 v = (k0, v) :: d by simp [dinsert]] at hp
      rcases List.mem_cons.mp hp with he | hm
      · subst he
        exact hv
      · exact hd' p hm
    · intro p hp
      rw [show dinsert ((k0, v0) :: d) k v = (k0, v0) :: dinsert d k v by
            simp [dinsert, h0]] at hp
      rcases List.mem_cons.mp hp with he | hm
      · subst he
        exact hd (k0, v0) (List.mem_cons_self _ _)
      · exact ih hd' p hm

theorem symKeyed_foldXbi (A : List Company) : ∀ d, symKeyed d → symKeyed (foldXbi d A) := by
  induction A with
  | nil => intro d hd; exact hd
  | cons a A ih =>
    intro d hd
    exact ih (xbiStep d a) (symKeyed_dinsert d a.symbol a hd rfl)

theorem symKeyed_foldNbi (B : List Company) : ∀ d, symKeyed d → symKeyed (foldNbi d B) := by
  induction B with
  | nil => intro d hd; exact hd
  | cons b B ih =>
    intro d hd
    apply ih (nbiStep d b)
    apply symKeyed_dinsert d b.symbol _ hd
    cases hl : lookup d b.symbol with
    | none => rfl
    | some e => exact lookup_symbol_of_symKeyed d hd b.symbol e hl

theorem map_symbol_map_snd (d : CompanyDict) (hd : symKeyed d) :
    (d.map Prod.snd).map Company.symbol = keys d := by
  induction d with
  | nil => rfl
  | cons p d ih =>
    obtain ⟨k0, v0⟩ := p
    have hd' : symKeyed d := fun q hq => hd q (List.mem_cons_of_mem _ hq)
    simp only [List.map_cons, keys_cons]
    rw [ih hd', hd (k0, v0) (List.mem_cons_self _ _)]

theorem mem_eq_of_nodup_map_symbol : ∀ (l : List Company),
    (l.map Company.symbol).Nodup →
      ∀ c1 ∈ l, ∀ c2 ∈ l, c1.symbol = c2.symbol → c1 = c2 := by
  intro l
  induction l with
  | nil => intro _ c1 h1; exact absurd h1 (List.not_mem_nil c1)
  | cons x l ih =>
    intro hnd c1 h1 c2 h2 he
    simp only [List.map_cons, List.nodup_cons] at hnd
    rcases List.mem_cons.mp h1 with he1 | hm1 <;> rcases List.mem_cons.mp h2 with he2 | hm2
    · rw [he1, he2]
    · subst he1
      exact absurd (he ▸ List.mem_map_of_mem Company.symbol hm2) hnd.1
    · subst he2
      exact absurd (he ▸ List.mem_map_of_mem Company.symbol hm1) hnd.1
    · exact ih hnd.2 c1 hm1 c2 hm2 he

theorem foldl_nbi_last : ∀ (L : List Company) (w : Option Rat), L ≠ [] →
    ∃ b ∈ L, L.foldl (fun _ b => b.nbi_weight) w = b.nbi_weight := by
  intro L
  induction L with
  | nil => intro w h; exact absurd rfl h
  | cons b L ih =>
    intro w _
    cases hL : L with
    | nil => exact ⟨b, List.mem_cons_self _ _, rfl⟩
    | cons b1 L1 =>
      obtain ⟨b', hb', he⟩ := ih b.nbi_weight (by rw [hL]; exact List.cons_ne_nil b1 L1)
      rw [← hL] at *
      exact ⟨b', List.mem_cons_of_mem _ hb', he⟩

/-! ### Claim theorems -/

/-- C6: the merge of two source lists is idempotent under re-application
with identical inputs: folding the XBI list `A` and then the NBI list `B`
into the mapping, and then folding the same `A` and `B` again, yields a
mapping identical to folding `A` then `B` once. -/
theorem merge_idempotent (A B : List Company) :
    foldNbi (foldXbi (foldNbi (foldXbi [] A) B) A) B = foldNbi (foldXbi [] A) B := by
  have hAk : ∀ a ∈ A, a.symbol ∈ keys (foldNbi (foldXbi [] A) B) := by
    intro a ha
    rw [mem_keys_foldNbi]
    left
    rw [mem_keys_foldXbi]
    right
    exact List.mem_map_of_mem Company.symbol ha
  have hBk : ∀ b ∈ B, b.symbol ∈ keys (foldNbi (foldXbi [] A) B) := by
    intro b hb
    rw [mem_keys_foldNbi]
    right
    exact List.mem_map_of_mem Company.symbol hb
  have hkeys1 : keys (foldXbi (foldNbi (foldXbi [] A) B) A)
      = keys (foldNbi (foldXbi [] A) B) :=
    keys_foldXbi_of_mem A _ hAk
  have hBk' : ∀ b ∈ B, b.symbol ∈ keys (foldXbi (foldNbi (foldXbi [] A) B) A) := by
    intro b hb
    rw [hkeys1]
    exact hBk b hb
  have hkeys : keys (foldNbi (foldXbi (foldNbi (foldXbi [] A) B) A) B)
      = keys (foldNbi (foldXbi [] A) B) :=
    (keys_foldNbi_of_mem B _ hBk').trans hkeys1
  have hnd : (keys (foldNbi (foldXbi [] A) B)).Nodup :=
    nodup_keys_foldNbi B _ (nodup_keys_foldXbi A [] (by simp [keys]))
  apply dict_ext _ _ hkeys (by rw [hkeys]; exact hnd)
  intro k
  have hD1k : lookup (foldNbi (foldXbi [] A) B) k
      = B.foldl (gstep k) (A.foldl (hstep k) none) := by
    rw [lookup_foldNbi, lookup_foldXbi]
    rfl
  rw [lookup_foldNbi, lookup_foldXbi]
  by_cases hA : ∃ a ∈ A, a.symbol = k
  · rw [foldl_hstep_of_exists A k hA (lookup (foldNbi (foldXbi [] A) B) k) none, ← hD1k]
  · have hA' : ∀ a ∈ A, a.symbol ≠ k := by
      intro a ha heq
      exact hA ⟨a, ha, heq⟩
    rw [foldl_hstep_of_forall A k hA' _, hD1k, foldl_hstep_of_forall A k hA' none]
    simp only [foldl_gstep_eq_mergeRun]
    exact mergeRun_reapply _

/-- C7: in every merged snapshot the symbol is unique within the company
list, and any symbol appearing in both source feeds (whose records carry
their source's weight, as the adapters always produce) is represented by
exactly one company record carrying both weight fields populated. -/
theorem merge_symbol_unique (A B : List Company)
    (hA : ∀ a ∈ A, a.xbi_weight.isSome) (hB : ∀ b ∈ B, b.nbi_weight.isSome) :
    ((get_combined_holdings A B).map Company.symbol).Nodup ∧
    ∀ k, k ∈ A.map Company.symbol → k ∈ B.map Company.symbol →
      ∃ c, c ∈ get_combined_holdings A B ∧ c.symbol = k ∧
        c.xbi_weight.isSome ∧ c.nbi_weight.isSome ∧
        ∀ c', c' ∈ get_combined_holdings A B → c'.symbol = k → c' = c := by
  have hsym : symKeyed (foldNbi (foldXbi [] A) B) :=
    symKeyed_foldNbi B _ (symKeyed_foldXbi A [] (by intro p hp; exact absurd hp (List.not_mem_nil p)))
  have hnd : (keys (foldNbi (foldXbi [] A) B)).Nodup :=
    nodup_keys_foldNbi B _ (nodup_keys_foldXbi A [] (by simp [keys]))
  have h1 : ((get_combined_holdings A B).map Company.symbol).Nodup := by
    rw [get_combined_holdings, map_symbol_map_snd _ hsym]
    exact hnd
  refine ⟨h1, fun k hkA hkB => ?_⟩
  obtain ⟨a, haA, hasym, hfold⟩ := foldl_hstep_mem A k hkA
  have hlk : lookup (foldNbi (foldXbi [] A) B) k
      = some ((B.filter (fun b => b.symbol == k)).foldl mergeCompany a) := by
    rw [lookup_foldNbi, lookup_foldXbi, show lookup ([] : CompanyDict) k = none from rfl,
        hfold none, foldl_gstep_eq_mergeRun, mergeRun_some]
  have hLne : B.filter (fun b => b.symbol == k) ≠ [] := by
    obtain ⟨b, hbB, hbsym⟩ := List.mem_map.mp hkB
    exact List.ne_nil_of_mem (List.mem_filter.mpr ⟨hbB, by simpa using hbsym⟩)
  have hmem : (B.filter (fun b => b.symbol == k)).foldl mergeCompany a
      ∈ get_combined_holdings A B := by
    have hp := mem_of_lookup_eq_some _ _ _ hlk
    rw [get_combined_holdings]
    exact List.mem_map_of_mem Prod.snd hp
  have hcs : ((B.filter (fun b => b.symbol == k)).foldl mergeCompany a).symbol = k := by
    rw [foldl_mergeCompany_symbol]
    exact hasym
  refine ⟨(B.filter (fun b => b.symbol == k)).foldl mergeCompany a, hmem, hcs, ?_, ?_, ?_⟩
  · rw [foldl_mergeCompany_xbi]
    exact hA a haA
  · rw [foldl_mergeCompany_nbi]
    obtain ⟨b', hb'mem, hb'eq⟩ := foldl_nbi_last _ a.nbi_weight hLne
    rw [hb'eq]
    exact hB b' (List.mem_of_mem_filter hb'mem)
  · intro c' hc' hcsym'
    exact mem_eq_of_nodup_map_symbol _ h1 c' hc' _ hmem (by rw [hcsym', hcs])

/-- Witness for C7 at a concrete pair of feeds sharing the symbol GILD. -/
theorem merge_symbol_unique_witness :
    ((get_combined_holdings gildXbiFeed gildNbiFeed).map Company.symbol).Nodup ∧
    ∀ k, k ∈ gildXbiFeed.map Company.symbol → k ∈ gildNbiFeed.map Company.symbol →
      ∃ c, c ∈ get_combined_holdings gildXbiFeed gildNbiFeed ∧ c.symbol = k ∧
        c.xbi_weight.isSome ∧ c.nbi_weight.isSome ∧
        ∀ c', c' ∈ get_combined_holdings gildXbiFeed gildNbiFeed → c'.symbol = k → c' = c :=
  merge_symbol_unique gildXbiFeed gildNbiFeed (by decide) (by decide)

/-- C8: the market-value formatter maps `1_500_000_000` to `"$1.5B"`,
`2_300_000` to `"$2.3M"`, `500` to `"$500"` and a missing input to
`"N/A"`; being a total function, it raises for no input. -/
theorem format_market_value_buckets :
    formatMarketValue (some (mkRat 1500000000 1)) = "$1.5B" ∧
    formatMarketValue (some (mkRat 2300000 1)) = "$2.3M" ∧
    formatMarketValue (some (mkRat 500 1)) = "$500" ∧
    formatMarketValue none = "N/A" :=
  ⟨by decide, by decide, by decide, rfl⟩

/-- C2 (code bug evidence): when the XBI endpoint answers with a non-200
status, the adapter falls through and returns Python `None` instead of an
empty list, and iterating that `None` in `get_combined_holdings` raises a
`TypeError` past the orchestrator; the exception paths (transport error,
malformed payload) do return `[]` and degrade gracefully. -/
theorem xbi_non_success_returns_none :
    get_xbi_holdings (FetchOutcome.response 500 []) = none ∧
    runCombinedHoldings (FetchOutcome.response 500 []) FetchOutcome.exn
      = Except.error "TypeError: NoneType object is not iterable" ∧
    get_xbi_holdings FetchOutcome.exn = some [] ∧
    runCombinedHoldings FetchOutcome.exn FetchOutcome.exn = Except.ok [] :=
  ⟨rfl, rfl, rfl, rfl⟩

/-- C4: merge precedence — for two records sharing a symbol where the
earlier record has a market cap and the later does not, the merged record
keeps the earlier market cap (first-writer-wins) while its NBI weight
always comes from the later record (last-writer-wins); and the GILD
scenario merges to exactly the expected single record. -/
theorem merge_precedence :
    (∀ a b : Company, a.symbol = b.symbol → a.market_cap.isSome → b.market_cap = none →
      ∃ c, get_combined_holdings [a] [b] = [c] ∧
        c.market_cap = a.market_cap ∧ c.nbi_weight = b.nbi_weight) ∧
    get_combined_holdings [gildA] [gildB] = [gildMerged] := by
  constructor
  · intro a b hsym _ hmb
    refine ⟨mergeCompany a b, ?_, ?_, rfl⟩
    · show (foldNbi (foldXbi [] [a]) [b]).map Prod.snd = [mergeCompany a b]
      simp [foldXbi, foldNbi, xbiStep, nbiStep, dinsert, lookup, mergeEntry, hsym]
    · show mcStep a.market_cap b.market_cap = a.market_cap
      rw [hmb]
      simp [mcStep, strFalsy]
  · decide

/-- Witness for C4 at a concrete pair with the market cap set only on the
earlier record. -/
theorem merge_precedence_witness :
    ∃ c, get_combined_holdings [precA] [precB] = [c] ∧
      c.market_cap = precA.market_cap ∧ c.nbi_weight = precB.nbi_weight :=
  merge_precedence.1 precA precB (by decide) (by decide) (by decide)

/-- C5 counterexample: a holding whose weight is exactly the `0.1`
threshold is discarded by the adapter, although the claim says a holding
at the threshold always appears. -/
theorem threshold_boundary_excluded :
    rawWeight boundaryHolding = mkRat 1 10 ∧
    processXbiHoldings [boundaryHolding] = [] ∧
    get_xbi_holdings (FetchOutcome.response 200 [boundaryHolding]) = some [] :=
  ⟨by decide, by decide, by decide⟩

theorem mem_processXbiHoldings (hs : List RawHolding) (c : Company) :
    c ∈ processXbiHoldings hs ↔
      ∃ h, h ∈ hs ∧ mkRat 1 10 < rawWeight h ∧ c = mkXbiCompany h := by
  induction hs with
  | nil => simp [processXbiHoldings]
  | cons h hs ih =>
    by_cases hw : mkRat 1 10 < rawWeight h
    · rw [show processXbiHoldings (h :: hs) = mkXbiCompany h :: processXbiHoldings hs by
          simp [processXbiHoldings, hw]]
      constructor
      · intro hc
        rcases List.mem_cons.mp hc with he | hm
        · exact ⟨h, List.mem_cons_self _ _, hw, he⟩
        · obtain ⟨h', hh', hw', he'⟩ := ih.mp hm
          exact ⟨h', List.mem_cons_of_mem _ hh', hw', he'⟩
      · rintro ⟨h', hh', hw', he'⟩
        rcases List.mem_cons.mp hh' with rfl | hm
        · rw [he']
          exact List.mem_cons_self _ _
        · exact List.mem_cons_of_mem _ (ih.mpr ⟨h', hm, hw', he'⟩)
    · rw [show processXbiHoldings (h :: hs) = processXbiHoldings hs by
          simp [processXbiHoldings, hw]]
      rw [ih]
      constructor
      · rintro ⟨h', hh', hw', he'⟩
        exact ⟨h', List.mem_cons_of_mem _ hh', hw', he'⟩
      · rintro ⟨h', hh', hw', he'⟩
        rcases List.mem_cons.mp hh' with rfl | hm
        · exact absurd hw' hw
        · exact ⟨h', hm, hw', he'⟩

theorem mem_processNbiHoldings (ns : List RawNbiHolding) (c : Company) :
    c ∈ processNbiHoldings ns ↔
      ∃ h, h ∈ ns ∧ mkRat 1 10 < rawNbiWeight h ∧ c = mkNbiCompany h := by
  induction ns with
  | nil => simp [processNbiHoldings]
  | cons h ns ih =>
    by_cases hw : mkRat 1 10 < rawNbiWeight h
    · rw [show processNbiHoldings (h :: ns) = mkNbiCompany h :: processNbiHoldings ns by
          simp [processNbiHoldings, hw]]
      constructor
      · intro hc
        rcases List.mem_cons.mp hc with he | hm
        · exact ⟨h, List.mem_cons_self _ _, hw, he⟩
        · obtain ⟨h', hh', hw', he'⟩ := ih.mp hm
          exact ⟨h', List.mem_cons_of_mem _ hh', hw', he'⟩
      · rintro ⟨h', hh', hw', he'⟩
        rcases List.mem_cons.mp hh' with rfl | hm
        · rw [he']
          exact List.mem_cons_self _ _
        · exact List.mem_cons_of_mem _ (ih.mpr ⟨h', hm, hw', he'⟩)
    · rw [show processNbiHoldings (h :: ns) = processNbiHoldings ns by
          simp [processNbiHoldings, hw]]
      rw [ih]
      constructor
      · rintro ⟨h', hh', hw', he'⟩
        exact ⟨h', List.mem_cons_of_mem _ hh', hw', he'⟩
      · rintro ⟨h', hh', hw', he'⟩
        rcases List.mem_cons.mp hh' with rfl | hm
        · exact absurd hw' hw
        · exact ⟨h', hm, hw', he'⟩

/-- C5 amended: both ETF adapters filter strictly — a company appears in
an adapter's output exactly when it comes from a holding whose weight is
strictly above the threshold; holdings at or below the threshold
contribute nothing. -/
theorem threshold_filtering_strict (hs : List RawHolding) (ns : List RawNbiHolding)
    (c : Company) :
    (c ∈ processXbiHoldings hs ↔
      ∃ h, h ∈ hs ∧ mkRat 1 10 < rawWeight h ∧ c = mkXbiCompany h) ∧
    (c ∈ processNbiHoldings ns ↔
      ∃ h, h ∈ ns ∧ mkRat 1 10 < rawNbiWeight h ∧ c = mkNbiCompany h) :=
  ⟨mem_processXbiHoldings hs c, mem_processNbiHoldings ns c⟩

/-- C1 counterexample: the per-company trial queries are concatenated with
no deduplication — the same registry identifier appears twice when two
company searches return the same trial. -/
theorem trials_duplicate_nct_preserved :
    (collectTrials dupTrialSearch dupTrialCompanies).map Trial.nct_id
      = ["NCT00000001", "NCT00000001"] ∧
    ¬ ((collectTrials dupTrialSearch dupTrialCompanies).map Trial.nct_id).Nodup :=
  ⟨by decide, by decide⟩

/-- C1 amended: the final trial sequence is exactly the concatenation of
the per-company search results over the first five companies with
non-empty names; records sharing a registry identifier are not collapsed. -/
theorem collect_trials_concatenation (search : String → List Trial)
    (companies : List Company) :
    collectTrials search companies
      = ((companies.take 5).filter (fun c => !(c.name == ""))).flatMap
          (fun c => search c.name) := by
  have hgen : ∀ (l : List Company) (acc : List Trial),
      l.foldl (fun acc c => if c.name == "" then acc else acc ++ search c.name) acc
        = acc ++ (l.filter (fun c => !(c.name == ""))).flatMap (fun c => search c.name) := by
    intro l
    induction l with
    | nil => intro acc; simp
    | cons c l ih =>
      intro acc
      by_cases hn : c.name = ""
      · have h1 : (if c.name == "" then acc else acc ++ search c.name) = acc := by
          simp [hn]
        rw [List.foldl_cons]
        show l.foldl _ (if c.name == "" then acc else acc ++ search c.name) = _
        rw [h1, ih]
        have h2 : List.filter (fun c => !(c.name == "")) (c :: l)
            = List.filter (fun c => !(c.name == "")) l := by
          simp [List.filter_cons, hn]
        rw [h2]
      · have h1 : (if c.name == "" then acc else acc ++ search c.name)
            = acc ++ search c.name := by
          simp [hn]
        rw [List.foldl_cons]
        show l.foldl _ (if c.name == "" then acc else acc ++ search c.name) = _
        rw [h1, ih]
        have h2 : List.filter (fun c => !(c.name == "")) (c :: l)
            = c :: List.filter (fun c => !(c.name == "")) l := by
          simp [List.filter_cons, hn]
        rw [h2, List.flatMap_cons, List.append_assoc]
  rw [collectTrials, hgen, List.nil_append]

/-- C3 counterexample: cross-referencing the approval with sponsor
`Vertex Pharmaceuticals Incorporated` against the company named
`Vertex Pharmaceuticals` does not match — the detail view's approvals list
is empty (while the trial with the same sponsor does match). -/
theorem approval_sponsor_superstring_not_matched :
    get_company_details [vertexCompany] [vertexApproval] [vertexTrial] "VRTX"
      = some vertexDetails := by
  decide

/-- C3 amended: the detail view matches approvals by testing that the
approval's sponsor, lowercased, occurs as a substring of the company's
name, and trials by testing that the company's name occurs as a substring
of the trial's sponsor — two opposite directions, so a sponsor that
strictly extends the company name matches as a trial but not as an
approval. -/
theorem cross_reference_directions
    (companies : List StoredCompany) (approvals : List Approval) (trials : List Trial)
    (symbol : String) (r : CompanyDetails)
    (h : get_company_details companies approvals trials symbol = some r) :
    (∀ a, a ∈ r.fda_approvals ↔
        a ∈ approvals ∧ strContains (pyLower r.company.name) (pyLower a.company) = true) ∧
    (∀ t, t ∈ r.clinical_trials ↔
        t ∈ trials ∧ strContains (pyLower t.sponsor) (pyLower r.company.name) = true) := by
  unfold get_company_details at h
  cases hf : companies.find? (fun c => c.symbol == pyUpper symbol) with
  | none => rw [hf] at h; exact Option.noConfusion h
  | some company =>
    rw [hf] at h
    cases h
    constructor
    · intro a
      simp [List.mem_filter]
    · intro t
      simp [List.mem_filter]

/-- Witness for C3 at the Vertex scenario. -/
theorem cross_reference_directions_witness :
    (∀ a, a ∈ vertexDetails.fda_approvals ↔
        a ∈ [vertexApproval] ∧
          strContains (pyLower vertexDetails.company.name) (pyLower a.company) = true) ∧
    (∀ t, t ∈ vertexDetails.clinical_trials ↔
        t ∈ [vertexTrial] ∧
          strContains (pyLower t.sponsor) (pyLower vertexDetails.company.name) = true) :=
  cross_reference_directions [vertexCompany] [vertexApproval] [vertexTrial] "VRTX"
    vertexDetails (by decide)

/-- C9 counterexample: a stored company whose symbol is `gild` is not
found by the query `gild`, although the stored symbol equals the query
letter for letter — the endpoint only uppercases the query, it does not
match case-insensitively against the stored symbol. -/
theorem lowercase_stored_symbol_not_found :
    pyLower lowercaseStored.symbol = pyLower "gild" ∧
    get_company_details [lowercaseStored] [] [] "gild" = none :=
  ⟨rfl, by decide⟩

/-- C9 amended: the lookup uppercases the query and compares it for exact
equality with stored symbols: a hit returns a stored company whose symbol
equals the uppercased query, and the not-found outcome occurs exactly when
no stored symbol equals the uppercased query. -/
theorem company_lookup_uppercase_query
    (companies : List StoredCompany) (approvals : List Approval) (trials : List Trial)
    (symbol : String) :
    (∀ r, get_company_details companies approvals trials symbol = some r →
        r.company ∈ companies ∧ r.company.symbol = pyUpper symbol) ∧
    (get_company_details companies approvals trials symbol = none ↔
        ∀ c ∈ companies, c.symbol ≠ pyUpper symbol) := by
  constructor
  · intro r h
    unfold get_company_details at h
    cases hf : companies.find? (fun c => c.symbol == pyUpper symbol) with
    | none => rw [hf] at h; exact Option.noConfusion h
    | some company =>
      rw [hf] at h
      cases h
      exact ⟨List.mem_of_find?_eq_some hf, by simpa using List.find?_some hf⟩
  · unfold get_company_details
    cases hf : companies.find? (fun c => c.symbol == pyUpper symbol) with
    | none =>
      constructor
      · intro _ c hc
        have hne := List.find?_eq_none.mp hf c hc
        simpa using hne
      · intro _
        rfl
    | some company =>
      constructor
      · intro h
        exact Option.noConfusion h
      · intro hall
        have hc := List.mem_of_find?_eq_some hf
        have hs := List.find?_some hf
        exact absurd (by simpa using hs) (hall _ hc)

/-- Witness for C9: the query `gild` finds the stored uppercase symbol
`GILD`. -/
theorem company_lookup_uppercase_query_witness :
    gildDetails.company ∈ [gildStored] ∧ gildDetails.company.symbol = pyUpper "gild" :=
  (company_lookup_uppercase_query [gildStored] [] [] "gild").1 gildDetails (by decide)

/-- C10: every record the orchestrator stores in the snapshot's company
list has both weight fields present (never null); a weight absent on the
merged company is coerced to `0` in the stored record. -/
theorem stored_weights_numeric (companies : List Company) (n : Nat) (s : StoredCompany)
    (hs : s ∈ storeCompanies companies n) :
    s.xbi_weight.isSome ∧ s.nbi_weight.isSome ∧
    ∃ c ∈ companies, (c.xbi_weight = none → s.xbi_weight = some 0) ∧
      (c.nbi_weight = none → s.nbi_weight = some 0) := by
  unfold storeCompanies at hs
  obtain ⟨c, hc, rfl⟩ := List.mem_map.mp hs
  refine ⟨rfl, rfl, c, List.take_subset n companies hc, ?_, ?_⟩
  · intro h
    rw [h]
    rfl
  · intro h
    rw [h]
    rfl

/-- Witness for C10 at a company whose XBI weight is absent. -/
theorem stored_weights_numeric_witness :
    storedDemoOut.xbi_weight.isSome ∧ storedDemoOut.nbi_weight.isSome ∧
    ∃ c ∈ storedDemo, (c.xbi_weight = none → storedDemoOut.xbi_weight = some 0) ∧
      (c.nbi_weight = none → storedDemoOut.nbi_weight = some 0) :=
  stored_weights_numeric storedDemo 30 storedDemoOut (by decide)

end CGTApp
